import Mathlib

/-!
# Verification of the tourism recommender core

Shallow embedding of `tourism_recommender.py` (class `TourismRecommender`):
the opening-hours evaluator (`parse_opening_hours`, `check_opening_status`),
the area travel-time tables (`get_travel_time`, `get_adjacent_areas`), the
scoring engine (`recommend`), the route optimizer (`_optimize_route`,
`_solve_tsp`, `_get_actual_travel_time`) and the day-distribution step of
`generate_travel_plan`.

Modelling conventions:
* Python floats are embedded as exact rationals (`ℚ`); `round(x, 1)` is
  embedded as round-half-to-even on rationals, matching CPython's rounding
  rule on exact values.
* Python exceptions (`ValueError` from tuple unpacking and `int`) are made
  explicit with `Except Unit`; a bare `except` that falls back to a default
  becomes a `match` on the `Except` value.
* Python dictionaries with string keys become association lists looked up
  with first-match semantics; the concrete tables of the source have
  pairwise-distinct keys, so this agrees with dictionary semantics.
* Python `set` iteration order (for `self.areas` and the `unvisited` set of
  the nearest-neighbour loop) is modelled by an explicit list order; `min`
  over a set becomes "first element attaining the minimum" in that order.
-/

namespace TourismRec

/-- `pre` is a prefix of `l` (on character lists, structurally). -/
def isPre : List Char → List Char → Bool
  | [], _ => true
  | _ :: _, [] => false
  | c :: cs, d :: ds => decide (c = d) && isPre cs ds

/-- Some suffix of the second list starts with `sub`. -/
def containsAux (sub : List Char) : List Char → Bool
  | [] => decide (sub = [])
  | c :: cs => isPre sub (c :: cs) || containsAux sub cs

/-- Python's substring test `sub in s` (the empty pattern is contained in
every string, as in Python). -/
def containsSub (s sub : String) : Bool :=
  containsAux sub.data s.data

/-- Drop `pre` from the front of `l` when it is a prefix, else `none`. -/
def stripPre : List Char → List Char → Option (List Char)
  | [], rest => some rest
  | _ :: _, [] => none
  | c :: cs, d :: ds => if c = d then stripPre cs ds else none

/-- Python `s.split(sep)` on char lists.  The fuel argument makes the
recursion structural; `s.length + 1` fuel always suffices because every
step consumes at least one character of the input. -/
def splitSepFuel (sep : List Char) : ℕ → List Char → List Char → List (List Char)
  | 0, acc, rest => [acc.reverse ++ rest]
  | _ + 1, acc, [] => [acc.reverse]
  | fuel + 1, acc, c :: cs =>
    match stripPre sep (c :: cs) with
    | some rest => acc.reverse :: splitSepFuel sep fuel [] rest
    | none => splitSepFuel sep fuel (c :: acc) cs

/-- Python `s.split(sep)` for a nonempty separator string. -/
def pySplitSep (s sep : String) : List String :=
  (splitSepFuel sep.data (s.data.length + 1) [] s.data).map (fun cs => String.mk cs)

/-- Helper for `pyTokens`: accumulate the current token (reversed). -/
def tokensAux (acc : List Char) : List Char → List (List Char)
  | [] => if acc = [] then [] else [acc.reverse]
  | c :: cs =>
    if c.isWhitespace then
      (if acc = [] then tokensAux [] cs else acc.reverse :: tokensAux [] cs)
    else tokensAux (c :: acc) cs

/-- Python's `str.split()` with no separator: split on whitespace runs and
drop empty pieces. -/
def pyTokens (s : String) : List String :=
  (tokensAux [] s.data).map (fun cs => String.mk cs)

/-- Python's `str.strip()`: remove leading and trailing whitespace. -/
def pyStrip (s : String) : String :=
  String.mk (((s.data.dropWhile Char.isWhitespace).reverse.dropWhile Char.isWhitespace).reverse)

/-- Numeric value of a digit string (already validated). -/
def digitsVal (cs : List Char) : ℕ :=
  cs.foldl (fun a c => 10 * a + (c.toNat - 48)) 0

/-- All characters are ASCII digits and there is at least one. -/
def allDigits (cs : List Char) : Bool :=
  decide (cs ≠ []) && cs.all (fun c => c.isDigit)

/-- Python's `int(s)` on a string: optional surrounding whitespace, optional
sign, then decimal digits; anything else raises `ValueError` (here: `none`). -/
def pyInt (s : String) : Option ℤ :=
  match (pyStrip s).data with
  | '+' :: rest => if allDigits rest then some ((digitsVal rest : ℤ)) else none
  | '-' :: rest => if allDigits rest then some (-(digitsVal rest : ℤ)) else none
  | cs => if allDigits cs then some ((digitsVal cs : ℤ)) else none

/-- A proleptic-Gregorian calendar date, as used by `datetime.date`. -/
structure PyDate where
  year : ℕ
  month : ℕ
  day : ℕ
deriving DecidableEq, Repr

def isLeapYear (y : ℕ) : Bool :=
  decide (y % 4 = 0) && (decide (y % 100 ≠ 0) || decide (y % 400 = 0))

def daysInMonth (y m : ℕ) : ℕ :=
  if m = 2 then (if isLeapYear y then 29 else 28)
  else if m = 4 ∨ m = 6 ∨ m = 9 ∨ m = 11 then 30
  else 31

/-- Days contributed by the full months before month `m` of year `y`. -/
def daysBeforeMonth (y m : ℕ) : ℕ :=
  ((List.range' 1 (m - 1)).map (daysInMonth y)).sum

/-- `date.toordinal()`: day number with 0001-01-01 ↦ 1 (proleptic Gregorian). -/
def toOrdinal (d : PyDate) : ℕ :=
  365 * (d.year - 1) + (d.year - 1) / 4 - (d.year - 1) / 100 + (d.year - 1) / 400
    + daysBeforeMonth d.year d.month + d.day

/-- `date.weekday()`: Monday = 0 … Sunday = 6; 0001-01-01 was a Monday. -/
def weekday (d : PyDate) : ℕ :=
  (toOrdinal d + 6) % 7

/-- Zero-padded two-digit rendering, as in `strftime` fields. -/
def pad2 (n : ℕ) : String :=
  if n < 10 then "0" ++ toString n else toString n

/-- `visit_date.strftime('%m/%d')`. -/
def dateToken (d : PyDate) : String :=
  pad2 d.month ++ "/" ++ pad2 d.day

/-- `_parse_partial_date`: `month, day = map(int, date_str.split('/'))` then
`datetime(year, month, day)`; every `ValueError` is `none` (the caller
`_date_in_range` catches it). -/
def parse_partial_date (ds : String) (year : ℕ) : Option PyDate :=
  match pySplitSep ds "/" with
  | [ms, dstr] =>
    match pyInt ms, pyInt dstr with
    | some m, some dd =>
      if 1 ≤ year ∧ year ≤ 9999 ∧ 1 ≤ m ∧ m ≤ 12 ∧ 1 ≤ dd
          ∧ dd ≤ (daysInMonth year m.toNat : ℤ) then
        some ⟨year, m.toNat, dd.toNat⟩
      else none
    | _, _ => none
  | _ => none

/-- `_date_in_range`: both bounds parsed against the visit date's year, then
`start <= date <= end`; any exception yields `False`. -/
def date_in_range (d : PyDate) (startStr endStr : String) : Bool :=
  match parse_partial_date startStr d.year, parse_partial_date endStr d.year with
  | some s, some e => decide (toOrdinal s ≤ toOrdinal d) && decide (toOrdinal d ≤ toOrdinal e)
  | _, _ => false

/-- `_is_holiday`: membership of `(month, day)` among the three fixed keys. -/
def is_holiday (d : PyDate) : Bool :=
  decide ((d.month, d.day) ∈ [(1, 1), (5, 1), (10, 1)])

def holidayNames : List String :=
  ["元旦节", "春节", "清明节", "劳动节", "端午节", "中秋节", "国庆节"]

/-- One iteration of the rule loop of `parse_opening_hours`.
`.ok true` = the loop returns `True` on this rule; `.ok false` = the rule is
skipped (`continue` or the leading token carries no `-`); `.error` = a
`ValueError` escapes (tuple unpacking of `rule.split(maxsplit=1)` or of
`date_part.split('-')`). -/
def rule_match (d : PyDate) (rule : String) : Except Unit Bool :=
  match pyTokens rule with
  | [] => .error ()
  | t0 :: rest =>
    if containsSub t0 "-" then
      match rest with
      | [] => .error ()
      | _ :: _ =>
        let time_part := String.intercalate " " rest
        match pySplitSep t0 "-" with
        | [sd, ed] =>
          if date_in_range d sd ed then
            if containsSub time_part "周一" && decide (weekday d ≠ 0) then .ok false
            else if containsSub time_part "周二" && decide (weekday d ≠ 1) then .ok false
            else if containsSub time_part "周三" && decide (weekday d ≠ 2) then .ok false
            else if containsSub time_part "周四" && decide (weekday d ≠ 3) then .ok false
            else if containsSub time_part "周五" && decide (weekday d ≠ 4) then .ok false
            else if containsSub time_part "周六" && decide (weekday d ≠ 5) then .ok false
            else if containsSub time_part "周日" && decide (weekday d ≠ 6) then .ok false
            else if holidayNames.any (fun h => containsSub time_part h) && !(is_holiday d) then
              .ok false
            else .ok true
          else .ok false
        | _ => .error ()
    else .ok false

/-- The `for rule in rules` loop: first rule returning `True` wins, a raised
exception propagates, otherwise fall through. -/
def scan_rules (d : PyDate) : List String → Except Unit Bool
  | [] => .ok false
  | r :: rest =>
    match rule_match d r with
    | .error e => .error e
    | .ok true => .ok true
    | .ok false => scan_rules d rest

/-- `parse_opening_hours(opening_hours_str, visit_date)`.  The empty string
stands for a missing/NaN spec (both are truthy-false in the source and give
`True`). -/
def parse_opening_hours (s : String) (visit_date : Option PyDate) : Except Unit Bool :=
  if s = "" then .ok true
  else if containsSub s "全天开放" then .ok true
  else if containsSub s "不开放" || containsSub s "闭馆" then
    match visit_date with
    | some d =>
      if containsSub s (dateToken d) then .ok false
      else .ok (!(containsSub s "不开放"))
    | none => .ok (!(containsSub s "不开放"))
  else
    match visit_date with
    | some d =>
      match scan_rules d (((pySplitSep s ";").map (fun r => pyStrip r)).filter (fun r => r ≠ "")) with
      | .error e => .error e
      | .ok true => .ok true
      | .ok false =>
        -- `if date_str in opening_hours_str: return True` … then `return True`
        if containsSub s (dateToken d) then .ok true else .ok true
    | none => .ok true

/-- `check_opening_status`: the record lookup plus parse, with a bare
`except` that defaults to open. -/
def check_opening_status (hours : String) (visit_date : Option PyDate) : Bool :=
  match parse_opening_hours hours visit_date with
  | .ok b => b
  | .error _ => true

/-! ## Area tables (`_preprocess_data`) -/

/-- First-match association-list lookup (Python dict lookup; the concrete
tables below have pairwise distinct keys, so first match = dict semantics). -/
def assocLookup {α β : Type} [DecidableEq α] (k : α) : List (α × β) → Option β
  | [] => none
  | (k2, v) :: rest => if k = k2 then some v else assocLookup k rest

/-- `self.adjacent_areas`. -/
def adjacent_areas : List (String × List String) :=
  [("云龙区", ["泉山区", "鼓楼区"]),
   ("泉山区", ["云龙区", "铜山区"]),
   ("鼓楼区", ["云龙区", "贾汪区"]),
   ("铜山区", ["泉山区", "睢宁县"]),
   ("贾汪区", ["鼓楼区", "邳州市"]),
   ("邳州市", ["贾汪区", "新沂市"]),
   ("新沂市", ["邳州市"]),
   ("睢宁县", ["铜山区"]),
   ("沛县", ["丰县"]),
   ("丰县", ["沛县"])]

/-- `self.travel_times` as written in the source, before the loop that
mirrors every pair. -/
def travel_times_base : List ((String × String) × ℕ) :=
  [(("云龙区", "泉山区"), 20),
   (("云龙区", "鼓楼区"), 15),
   (("泉山区", "铜山区"), 25),
   (("鼓楼区", "贾汪区"), 40),
   (("铜山区", "睢宁县"), 60),
   (("贾汪区", "邳州市"), 50),
   (("邳州市", "新沂市"), 45),
   (("沛县", "丰县"), 30)]

/-- The table after `for (a, b), time in list(...): self.travel_times[(b, a)] = time`:
no reversed pair collides with an original key, so the dict is the union. -/
def travel_times : List ((String × String) × ℕ) :=
  travel_times_base ++ travel_times_base.map (fun p => ((p.1.2, p.1.1), p.2))

/-- `get_adjacent_areas`: `self.adjacent_areas.get(area, [])`. -/
def get_adjacent_areas (area : String) : List String :=
  (assocLookup area adjacent_areas).getD []

/-- `get_travel_time`: 0 on equal areas, table lookup with default 90. -/
def get_travel_time (area1 area2 : String) : ℕ :=
  if area1 = area2 then 0 else (assocLookup (area1, area2) travel_times).getD 90

/-! ## Attraction records and the scoring engine (`recommend`) -/

/-- The CSV `评分` cell as the `float()` conversion in `get_attraction_info`
sees it: explicitly missing (`'无评分'`, `'暂无评分'`, `None`), numeric, or
unparseable (the `except` branch). -/
inductive CsvRating
  | missing
  | invalid
  | value (r : ℚ)
deriving DecidableEq, Repr

/-- One attraction node together with its flat CSV record, as assembled by
`get_attraction_info`.  `graphRating` carries the value of
`70 + 10*log1p(theme_count) + 8*log1p(audience_count) + 5*log1p(degree)`
for the missing-rating branch: the logarithms are transcendental, so the
embedding keeps the formula's value as data while the subsequent clamp to
[60, 95] and division by 20 are embedded exactly.  `opening_hours = ""`
models a missing/NaN spec.  `commentCount` is the digit-stripped comment
field (a natural number; unparseable fields give 0). -/
structure AttrNode where
  name : String
  themes : List String
  audiences : List String
  address : String
  opening_hours : String
  csvRating : CsvRating
  graphRating : ℚ
  commentCount : ℕ
deriving DecidableEq, Repr

/-- The rating produced by `get_attraction_info`. -/
def ratingOf (a : AttrNode) : ℚ :=
  match a.csvRating with
  | .missing => min 95 (max 60 a.graphRating) / 20
  | .invalid => 7 / 2
  | .value r => min 5 (max 1 r)

/-- The recommender's static data: the attraction list in graph-node order
and `self.areas` in its set-iteration order. -/
structure Model where
  attractions : List AttrNode
  areas : List String
deriving DecidableEq, Repr

/-- `extract_area_from_address`: first listed area occurring in the address. -/
def extract_area_from_address (areas : List String) (address : String) : String :=
  match areas.find? (fun area => containsSub address area) with
  | some a => a
  | none => "未知区域"

/-- A recommendation query: the arguments of `recommend`.  `date_range`
empty models both `None` and an empty list (both falsy).  `top_n = none`
models `top_n=None` (slicing with `None` returns the whole list); the
Python signature's default value is `5`, i.e. `some 5`. -/
structure Query where
  themes : List String
  audiences : List String
  target_area : Option String
  date_range : List PyDate
  top_n : Option ℕ
deriving DecidableEq, Repr

/-- `[target_area] if target_area else []` (the empty string is falsy). -/
def target_areas (q : Query) : List String :=
  match q.target_area with
  | some s => if s = "" then [] else [s]
  | none => []

/-- Theme match: `30 * (1.0 if not themes else len(set(themes) & set(themes_attr)) / len(themes))`. -/
def theme_score (q : Query) (a : AttrNode) : ℚ :=
  30 * (if q.themes = [] then 1
        else ((q.themes.dedup.filter (fun t => a.themes.contains t)).length : ℚ)
              / (q.themes.length : ℚ))

/-- Audience match, weight 25. -/
def audience_score (q : Query) (a : AttrNode) : ℚ :=
  25 * (if q.audiences = [] then 1
        else ((q.audiences.dedup.filter (fun t => a.audiences.contains t)).length : ℚ)
              / (q.audiences.length : ℚ))

/-- Area match: 20 / 20 / 14 / 8. -/
def area_score (q : Query) (areas : List String) (a : AttrNode) : ℚ :=
  let area := extract_area_from_address areas a.address
  if target_areas q = [] then 20
  else if (target_areas q).contains area then 20
  else if (get_adjacent_areas ((target_areas q).headD "")).contains area then 14
  else 8

/-- `10 * (info['rating'] / 5.0)`. -/
def base_rating_score (a : AttrNode) : ℚ :=
  10 * (ratingOf a / 5)

/-- `open_days = sum(check_opening_status(...) for date in date_range)`. -/
def open_days (q : Query) (a : AttrNode) : ℕ :=
  (q.date_range.filter (fun d => check_opening_status a.opening_hours (some d))).length

/-- `open_ratio = open_days / len(date_range) if open_days > 0 else 0`. -/
def open_ratio (q : Query) (a : AttrNode) : ℚ :=
  if 0 < open_days q a then (open_days q a : ℚ) / (q.date_range.length : ℚ) else 0

/-- The opening-time penalty: only set when a date range was given, the
candidate was not excluded (`open_ratio > 0`) and `open_ratio < 0.8`. -/
def open_penalty (q : Query) (a : AttrNode) : ℚ :=
  if q.date_range ≠ [] ∧ 0 < open_ratio q a ∧ open_ratio q a < 4 / 5 then
    5 - 5 * open_ratio q a
  else 0

/-- The first comment interval `[min_c, max_c)` containing the count wins
(`comment_count ≥ 0` always, so `[0, 50)` degenerates to `< 50`). -/
def comment_bonus (c : ℕ) : ℚ :=
  if c < 50 then 1
  else if c < 200 then 2
  else if c < 1000 then 4
  else if c < 5000 then 6
  else 8

/-- Seasonal adjustment from the month of the first requested date. -/
def seasonal_bonus (q : Query) (a : AttrNode) : ℚ :=
  match q.date_range with
  | [] => 0
  | d :: _ =>
    if a.themes.contains "冰雪" && (decide (d.month = 12) || decide (d.month = 1) || decide (d.month = 2)) then 2
    else if a.themes.contains "赏花" && (decide (d.month = 3) || decide (d.month = 4)) then 1
    else 0

/-- `raw_score`: the six weighted terms minus the opening penalty. -/
def raw_score (q : Query) (M : Model) (a : AttrNode) : ℚ :=
  theme_score q a + audience_score q a + area_score q M.areas a
    + base_rating_score a + comment_bonus a.commentCount + seasonal_bonus q a
    - open_penalty q a

/-- CPython's `round` on exact values: round half to even. -/
def round_half_even (x : ℚ) : ℤ :=
  let f := ⌊x⌋
  if x - f < 1 / 2 then f
  else if 1 / 2 < x - f then f + 1
  else if f % 2 = 0 then f else f + 1

/-- `round(x, 1)`. -/
def py_round1 (x : ℚ) : ℚ :=
  ((round_half_even (10 * x) : ℚ)) / 10

/-- `final_score`: the linear rescale, rounded, then clamped to [1, 5]. -/
def final_score (q : Query) (M : Model) (a : AttrNode) : ℚ :=
  min 5 (max 1 (py_round1 (1 + 4 * (raw_score q M a / 100))))

/-- The candidate list in graph order, with the fully-closed exclusion
(`open_ratio <= 0: continue`, only when a date range was given). -/
def candidate_list (M : Model) (q : Query) : List (AttrNode × ℚ) :=
  M.attractions.filterMap (fun a =>
    if q.date_range ≠ [] ∧ open_ratio q a ≤ 0 then none
    else some (a, final_score q M a))

/-- The sort order of `candidates.sort(key=lambda x: (-x[1], -x[2]['comment_count']))`:
score descending, then comment count descending. -/
def cand_le (x y : AttrNode × ℚ) : Prop :=
  y.2 < x.2 ∨ (x.2 = y.2 ∧ y.1.commentCount ≤ x.1.commentCount)

instance : DecidableRel cand_le := fun x y => by
  unfold cand_le; exact inferInstance

instance : IsTotal (AttrNode × ℚ) cand_le where
  total x y := by
    unfold cand_le
    rcases lt_trichotomy x.2 y.2 with h | h | h
    · exact Or.inr (Or.inl h)
    · rcases Nat.le_total y.1.commentCount x.1.commentCount with hc | hc
      · exact Or.inl (Or.inr ⟨h, hc⟩)
      · exact Or.inr (Or.inr ⟨h.symm, hc⟩)
    · exact Or.inl (Or.inl h)

instance : IsTrans (AttrNode × ℚ) cand_le where
  trans x y z := by
    unfold cand_le
    rintro (h1 | ⟨h1e, h1c⟩) (h2 | ⟨h2e, h2c⟩)
    · exact Or.inl (h2.trans h1)
    · exact Or.inl (h2e ▸ h1)
    · exact Or.inl (h1e.symm ▸ h2)
    · exact Or.inr ⟨h1e.trans h2e, h2c.trans h1c⟩

/-- `recommend`: build candidates, sort (Python's sort is stable, as is
insertion sort, and both use the same total preorder, so they agree), then
slice `[:top_n]`. -/
def recommend (M : Model) (q : Query) : List (AttrNode × ℚ) :=
  let sorted := List.insertionSort cand_le (candidate_list M q)
  match q.top_n with
  | some n => sorted.take n
  | none => sorted

/-! ## Route optimizer (`_get_actual_travel_time`, `_solve_tsp`, `_optimize_route`) -/

/-- `_get_actual_travel_time`: 15 minutes inside one area, else table time
plus 30 minutes of parking/navigation overhead. -/
def get_actual_travel_time (area1 area2 : String) : ℕ :=
  if area1 = area2 then 15 else get_travel_time area1 area2 + 30

/-- Cost of the consecutive edges of an open path. -/
def path_cost (M : ℕ → ℕ → ℕ) : List ℕ → ℕ
  | [] => 0
  | [_] => 0
  | a :: b :: rest => M a b + path_cost M (b :: rest)

/-- Cost of the closed tour: the open path plus the edge from the last node
back to the first.  This is exactly the quantity whose change the 2-opt
`delta` of `_solve_tsp` measures (its `j + 1 == n` case wraps to node 0,
which is the tour's first node throughout). -/
def cycle_cost (M : ℕ → ℕ → ℕ) : List ℕ → ℕ
  | [] => 0
  | a :: rest => path_cost M (a :: rest) + M ((a :: rest).getLastD 0) a

/-- Python `min(unvisited, key=f)` over the modelled iteration order:
returns the first minimiser together with the remaining elements in order
(`unvisited.remove(next_node)`). -/
def selectMin (f : ℕ → ℕ) : List ℕ → Option (ℕ × List ℕ)
  | [] => none
  | x :: xs =>
    match selectMin f xs with
    | none => some (x, [])
    | some (y, ys) => if f x ≤ f y then some (x, xs) else some (y, x :: ys)

/-- The nearest-neighbour `while unvisited` loop.  The fuel argument makes
the recursion structural; every iteration removes exactly one node, so fuel
equal to the initial `unvisited` length reproduces the loop exactly. -/
def nn_aux (M : ℕ → ℕ → ℕ) : ℕ → ℕ → List ℕ → List ℕ
  | 0, _, _ => []
  | fuel + 1, last, unvisited =>
    match selectMin (fun x => M last x) unvisited with
    | none => []
    | some (y, ys) => y :: nn_aux M fuel y ys

/-- The nearest-neighbour seed tour: `path = [0]`, `unvisited = set(range(1, n))`. -/
def nn_tour (M : ℕ → ℕ → ℕ) (n : ℕ) : List ℕ :=
  0 :: nn_aux M (n - 1) 0 (List.range' 1 (n - 1))

/-- `path[i:j + 1] = path[j:i - 1:-1]`: reverse the segment at positions
`i … j` (for `1 ≤ i ≤ j`, the Python slice is exactly this reversal). -/
def rev_seg (p : List ℕ) (i j : ℕ) : List ℕ :=
  p.take i ++ ((p.drop i).take (j + 1 - i)).reverse ++ p.drop (j + 1)

/-- One `(i, j)` probe of the 2-opt double loop: skip `j - i == 1`, else
compare the two new boundary edges against the two old ones and reverse on
strict improvement.  In the source the wrapped second endpoint is the node
`0` itself (`path[j + 1] if j + 1 < n else 0`). -/
def two_opt_step (M : ℕ → ℕ → ℕ) (n : ℕ) (st : List ℕ × Bool) (ij : ℕ × ℕ) : List ℕ × Bool :=
  let p := st.1
  let i := ij.1
  let j := ij.2
  if j - i = 1 then st
  else
    let w := if j + 1 < n then p.getD (j + 1) 0 else 0
    if M (p.getD (i - 1) 0) (p.getD j 0) + M (p.getD i 0) w
        < M (p.getD (i - 1) 0) (p.getD i 0) + M (p.getD j 0) w then
      (rev_seg p i j, true)
    else st

/-- The `(i, j)` probe order of `for i in range(1, n - 2): for j in range(i + 1, n)`. -/
def pair_list (n : ℕ) : List (ℕ × ℕ) :=
  (List.range' 1 (n - 3)).flatMap (fun i => (List.range' (i + 1) (n - (i + 1))).map (fun j => (i, j)))

/-- One full scan of the double loop, with the `improved` flag. -/
def two_opt_sweep (M : ℕ → ℕ → ℕ) (n : ℕ) (p : List ℕ) : List ℕ × Bool :=
  (pair_list n).foldl (two_opt_step M n) (p, false)

/-- The `while improved` loop, with structural fuel.  `solve_tsp` passes
`cycle_cost M seed + 1` fuel, which is proved sufficient below: every
improving sweep strictly decreases the (natural-number) tour cost. -/
def two_opt_iter (M : ℕ → ℕ → ℕ) (n : ℕ) : ℕ → List ℕ → List ℕ
  | 0, p => p
  | fuel + 1, p =>
    let st := two_opt_sweep M n p
    if st.2 then two_opt_iter M n fuel st.1 else st.1

/-- `_solve_tsp`: `[0]` for `n ≤ 1`, else nearest neighbour then 2-opt. -/
def solve_tsp (M : ℕ → ℕ → ℕ) (n : ℕ) : List ℕ :=
  if n ≤ 1 then [0]
  else two_opt_iter M n (cycle_cost M (nn_tour M n) + 1) (nn_tour M n)

/-- `_optimize_route`: untouched for ≤ 2 stops, else build the cost matrix
from the stops' areas and reindex by the solved tour. -/
def optimize_route {α : Type} [Inhabited α] (areaOf : α → String) (attrs : List α) : List α :=
  if attrs.length ≤ 2 then attrs
  else
    (solve_tsp
        (fun i j => get_actual_travel_time (areaOf (attrs.getD i default))
          (areaOf (attrs.getD j default)))
        attrs.length).map (fun k => attrs.getD k default)

/-! ## Day distribution (`generate_travel_plan`) -/

/-- The round-robin day assignment:
`for i, attr in enumerate(attractions_info): daily_attractions[i % len(date_range)].append(attr)`. -/
def distribute_days {α : Type} (m : ℕ) (attrs : List α) : List (List α) :=
  attrs.enum.foldl
    (fun acc p => acc.set (p.1 % m) (acc.getD (p.1 % m) [] ++ [p.2]))
    (List.replicate m [])

/-! ## Concrete data used by the witnesses -/

/-- A sample attraction: rated 4.0, 100 comments, always open. -/
def demoAttr : AttrNode :=
  ⟨"汉文化景区", ["两汉文化"], ["文化爱好者"], "云龙区汉风路", "全天开放", .value 4, 0, 100⟩

/-- An attraction closed only on 05/01 (the 闭馆 marker plus a date token). -/
def demoPartAttr : AttrNode :=
  ⟨"博物馆", [], [], "云龙区和平路", "05/01闭馆", .value 4, 0, 10⟩

/-- An attraction that is never open (the 不开放 marker). -/
def demoClosedAttr : AttrNode :=
  ⟨"关闭景点", [], [], "云龙区建国路", "不开放", .value 4, 0, 10⟩

def demoModel : Model := ⟨[demoAttr], ["云龙区"]⟩

def demoQuery : Query := ⟨["两汉文化"], [], none, [], none⟩

def demoModel2 : Model := ⟨[demoPartAttr, demoClosedAttr], ["云龙区"]⟩

/-- A two-day query: 2024-05-01 and 2024-05-02, no result limit. -/
def demoQuery2 : Query := ⟨[], [], none, [⟨2024, 5, 1⟩, ⟨2024, 5, 2⟩], none⟩

/-- The same query with a result limit of 2. -/
def demoQuery2Top : Query := { demoQuery2 with top_n := some 2 }

/-! ## Lemmas about the lookup tables -/

theorem assocLookup_eq_some_iff {α β : Type} [DecidableEq α] {l : List (α × β)}
    (hnd : (l.map Prod.fst).Nodup) {k : α} {v : β} :
    assocLookup k l = some v ↔ (k, v) ∈ l := by
  induction l with
  | nil => simp [assocLookup]
  | cons hd tl ih =>
    obtain ⟨k2, w⟩ := hd
    simp only [List.map_cons, List.nodup_cons, List.mem_map] at hnd
    by_cases hk : k = k2
    · subst hk
      have hl : assocLookup k ((k, w) :: tl) = some w := by
        rw [assocLookup, if_pos rfl]
      rw [hl]
      constructor
      · intro h
        injection h with h
        subst h
        exact List.mem_cons_self _ _
      · intro hmem
        rcases List.mem_cons.mp hmem with heq | hmem2
        · injection heq with h1 h2
          rw [h2]
        · exact absurd ⟨(k, v), hmem2, rfl⟩ hnd.1
    · rw [assocLookup, if_neg hk, ih hnd.2]
      constructor
      · exact fun h => List.mem_cons_of_mem _ h
      · intro hmem
        rcases List.mem_cons.mp hmem with heq | hmem2
        · injection heq with h1 h2
          exact absurd h1 hk
        · exact hmem2

theorem assocLookup_eq_none_iff {α β : Type} [DecidableEq α] {l : List (α × β)} {k : α} :
    assocLookup k l = none ↔ k ∉ l.map Prod.fst := by
  induction l with
  | nil => simp [assocLookup]
  | cons hd tl ih =>
    obtain ⟨k2, w⟩ := hd
    by_cases hk : k = k2
    · subst hk; simp [assocLookup]
    · simp [assocLookup, if_neg hk, ih, hk]

theorem travel_times_keys_nodup : (travel_times.map Prod.fst).Nodup := by decide

theorem travel_times_swap_closed :
    ∀ p ∈ travel_times, ((p.1.2, p.1.1), p.2) ∈ travel_times := by decide

theorem assocLookup_travel_swap_none {a b : String}
    (h : assocLookup (a, b) travel_times = none) :
    assocLookup (b, a) travel_times = none := by
  rw [assocLookup_eq_none_iff] at h ⊢
  intro hmem
  rcases List.mem_map.mp hmem with ⟨p, hp, hpk⟩
  exact h (List.mem_map.mpr ⟨((p.1.2, p.1.1), p.2), travel_times_swap_closed p hp, by simp [hpk]⟩)

theorem get_travel_time_symm_aux : ∀ a b : String, get_travel_time a b = get_travel_time b a := by
  intro a b
  by_cases hab : a = b
  · subst hab; rfl
  · rw [get_travel_time, get_travel_time, if_neg hab, if_neg (Ne.symm hab)]
    cases h : assocLookup (a, b) travel_times with
    | some v =>
      have hmem := (assocLookup_eq_some_iff travel_times_keys_nodup).mp h
      have h2 : assocLookup (b, a) travel_times = some v :=
        (assocLookup_eq_some_iff travel_times_keys_nodup).mpr
          (travel_times_swap_closed _ hmem)
      rw [h2]
    | none =>
      rw [assocLookup_travel_swap_none h]

/-- C8: the travel-time lookup is symmetric: `get_travel_time A B` equals
`get_travel_time B A` for all areas A and B; every pair listed in the base
table yields the identical table value in both directions; and an unlisted
pair of distinct areas yields the default of 90 minutes in both directions. -/
theorem get_travel_time_symmetric :
    (∀ a b : String, get_travel_time a b = get_travel_time b a) ∧
    (∀ p ∈ travel_times_base,
      get_travel_time p.1.1 p.1.2 = p.2 ∧ get_travel_time p.1.2 p.1.1 = p.2) ∧
    (∀ a b : String, a ≠ b → (a, b) ∉ travel_times.map Prod.fst →
      get_travel_time a b = 90 ∧ get_travel_time b a = 90) := by
  refine ⟨get_travel_time_symm_aux, by decide, ?_⟩
  intro a b hne hnot
  have h1 : assocLookup (a, b) travel_times = none := assocLookup_eq_none_iff.mpr hnot
  have h2 := assocLookup_travel_swap_none h1
  constructor
  · rw [get_travel_time, if_neg hne, h1]; rfl
  · rw [get_travel_time, if_neg (Ne.symm hne), h2]; rfl

/-- Witness for C8 at concrete areas: an unlisted pair of distinct areas
defaults to 90 minutes in both directions. -/
theorem get_travel_time_symmetric_witness :
    get_travel_time "云龙区" "新沂市" = 90 ∧ get_travel_time "新沂市" "云龙区" = 90 :=
  get_travel_time_symmetric.2.2 "云龙区" "新沂市" (by decide) (by decide)

/-! ## The opening-hours evaluator: closed markers (C3) and rule lists (C4) -/

/-- C3 counterexample: the spec `"周一闭馆"` contains the closed marker
`闭馆`, the requested date 2024-05-02's token `05/02` does not occur in it,
yet `parse_opening_hours` answers open — refuting "for every hours_spec
containing a closed marker, is_open returns false except on a date
exemption" at this concrete input (and the exemption direction is likewise
inverted: a matching token yields closed, not open). -/
theorem closed_marker_counterexample :
    containsSub "周一闭馆" "闭馆" = true ∧
    containsSub "周一闭馆" (dateToken ⟨2024, 5, 2⟩) = false ∧
    parse_opening_hours "周一闭馆" (some ⟨2024, 5, 2⟩) = .ok true ∧
    containsSub "01/02闭馆" (dateToken ⟨2024, 1, 2⟩) = true ∧
    parse_opening_hours "01/02闭馆" (some ⟨2024, 1, 2⟩) = .ok false :=
  ⟨rfl, rfl, rfl, rfl, rfl⟩

/-- C3 (amended): for a nonempty spec without the all-day marker but with a
closed marker (不开放 or 闭馆), the evaluator returns closed exactly when
the spec mentions 不开放 — except that when the requested date's literal
`MM/DD` token occurs in the spec the answer is closed (the date token marks
a closure, not an exemption).  Without a requested date, the answer is open
iff the marker was only 闭馆. -/
theorem parse_opening_hours_closed_marker (s : String) (d : PyDate)
    (hne : s ≠ "") (hall : containsSub s "全天开放" = false)
    (hcm : containsSub s "不开放" = true ∨ containsSub s "闭馆" = true) :
    parse_opening_hours s (some d) =
      .ok (if containsSub s (dateToken d) then false else !(containsSub s "不开放")) ∧
    parse_opening_hours s none = .ok (!(containsSub s "不开放")) := by
  have hb : (containsSub s "不开放" || containsSub s "闭馆") = true := by
    rcases hcm with h | h <;> simp [h]
  constructor
  · rw [parse_opening_hours.eq_def, if_neg hne, if_neg (by simp [hall]), if_pos hb]
    dsimp only
    split <;> rfl
  · rw [parse_opening_hours.eq_def, if_neg hne, if_neg (by simp [hall]), if_pos hb]

/-- Witness for C3 (amended) at a concrete spec and date. -/
theorem parse_opening_hours_closed_marker_witness :
    parse_opening_hours "3/15不开放" (some ⟨2024, 5, 2⟩) =
      .ok (if containsSub "3/15不开放" (dateToken ⟨2024, 5, 2⟩) then false
           else !(containsSub "3/15不开放" "不开放")) ∧
    parse_opening_hours "3/15不开放" none = .ok (!(containsSub "3/15不开放" "不开放")) :=
  parse_opening_hours_closed_marker "3/15不开放" ⟨2024, 5, 2⟩ (by decide) (by decide)
    (Or.inl (by decide))

/-- C4 counterexample: the spec `"01/01-01/02 周一"` is a rule list (no
all-day or closed marker); on 2024-05-05 no rule matches (the loop falls
through) and the date token `05/05` does not occur in the spec, yet the
evaluator answers open — refuting "when no rule matches and the MM/DD token
is absent, the result is not true (closed)". -/
theorem rule_list_counterexample :
    containsSub "01/01-01/02 周一" "全天开放" = false ∧
    containsSub "01/01-01/02 周一" "不开放" = false ∧
    containsSub "01/01-01/02 周一" "闭馆" = false ∧
    scan_rules ⟨2024, 5, 5⟩
      (((pySplitSep "01/01-01/02 周一" ";").map (fun r => pyStrip r)).filter
        (fun r => r ≠ "")) = .ok false ∧
    containsSub "01/01-01/02 周一" (dateToken ⟨2024, 5, 5⟩) = false ∧
    parse_opening_hours "01/01-01/02 周一" (some ⟨2024, 5, 5⟩) = .ok true :=
  ⟨rfl, rfl, rfl, rfl, rfl, rfl⟩

/-- C4 (amended): for a spec with no all-day marker and no closed marker,
the evaluator never answers closed: whenever it returns a value at all the
value is open — also when no rule matches and the date token is absent (the
loop's fall-through is `return True`, fail-open) — and the caller
`check_opening_status` (which converts a raised `ValueError` to open)
always answers open for such specs. -/
theorem parse_opening_hours_rule_list_fail_open (s : String) (od : Option PyDate)
    (hall : containsSub s "全天开放" = false)
    (hnk : containsSub s "不开放" = false) (hbg : containsSub s "闭馆" = false) :
    (∀ b, parse_opening_hours s od = .ok b → b = true) ∧
    check_opening_status s od = true := by
  have key : ∀ b, parse_opening_hours s od = .ok b → b = true := by
    intro b hb
    by_cases hne : s = ""
    · subst hne
      rw [parse_opening_hours.eq_def, if_pos rfl] at hb
      injection hb with hb
      exact hb.symm
    · rw [parse_opening_hours.eq_def, if_neg hne, if_neg (by simp [hall]),
        if_neg (by simp [hnk, hbg])] at hb
      cases od with
      | none =>
        dsimp only at hb
        injection hb with hb
        exact hb.symm
      | some d =>
        dsimp only at hb
        cases hscan : scan_rules d
            (((pySplitSep s ";").map (fun r => pyStrip r)).filter (fun r => r ≠ "")) with
        | error e =>
          rw [hscan] at hb
          dsimp only at hb
          exact absurd hb (by simp)
        | ok bv =>
          rw [hscan] at hb
          cases bv with
          | true =>
            dsimp only at hb
            injection hb with hb
            exact hb.symm
          | false =>
            dsimp only at hb
            split at hb <;> (injection hb with hb; exact hb.symm)
  refine ⟨key, ?_⟩
  unfold check_opening_status
  cases hp : parse_opening_hours s od with
  | ok b => exact key b hp
  | error e => rfl

/-- Witness for C4 (amended) at the counterexample's concrete spec and date. -/
theorem parse_opening_hours_rule_list_fail_open_witness :
    check_opening_status "01/01-01/02 周一" (some ⟨2024, 5, 5⟩) = true :=
  (parse_opening_hours_rule_list_fail_open "01/01-01/02 周一" (some ⟨2024, 5, 5⟩)
    (by decide) (by decide) (by decide)).2

/-! ## The scoring engine: membership, score range, ranking -/

theorem recommend_eq_of_some {M : Model} {q : Query} {n : ℕ} (h : q.top_n = some n) :
    recommend M q = (List.insertionSort cand_le (candidate_list M q)).take n := by
  unfold recommend
  rw [h]

theorem recommend_eq_of_none {M : Model} {q : Query} (h : q.top_n = none) :
    recommend M q = List.insertionSort cand_le (candidate_list M q) := by
  unfold recommend
  rw [h]

theorem mem_candidate_list {M : Model} {q : Query} {x : AttrNode × ℚ}
    (h : x ∈ candidate_list M q) :
    x.1 ∈ M.attractions ∧ x.2 = final_score q M x.1 ∧
      ¬(q.date_range ≠ [] ∧ open_ratio q x.1 ≤ 0) := by
  rcases List.mem_filterMap.mp h with ⟨a, ha, hf⟩
  by_cases hc : q.date_range ≠ [] ∧ open_ratio q a ≤ 0
  · rw [if_pos hc] at hf
    exact absurd hf (by simp)
  · rw [if_neg hc] at hf
    injection hf with hf
    subst hf
    exact ⟨ha, rfl, hc⟩

theorem candidate_list_mem_of {M : Model} {q : Query} {a : AttrNode}
    (ha : a ∈ M.attractions) (hc : ¬(q.date_range ≠ [] ∧ open_ratio q a ≤ 0)) :
    (a, final_score q M a) ∈ candidate_list M q :=
  List.mem_filterMap.mpr ⟨a, ha, by rw [if_neg hc]⟩

theorem mem_recommend {M : Model} {q : Query} {x : AttrNode × ℚ}
    (h : x ∈ recommend M q) : x ∈ candidate_list M q := by
  cases htop : q.top_n with
  | some n =>
    rw [recommend_eq_of_some htop] at h
    exact ((List.perm_insertionSort cand_le (candidate_list M q)).mem_iff).mp
      (List.mem_of_mem_take h)
  | none =>
    rw [recommend_eq_of_none htop] at h
    exact ((List.perm_insertionSort cand_le (candidate_list M q)).mem_iff).mp h

/-- C1: every candidate returned by `recommend` carries exactly the score
`round(1 + 4 * raw_total / 100, 1)` clamped to [1.0, 5.0], and in
particular every returned score lies in [1.0, 5.0] — for every model and
query, including extreme comment counts and missing ratings. -/
theorem recommend_score_in_range (M : Model) (q : Query) (x : AttrNode × ℚ)
    (hx : x ∈ recommend M q) :
    x.2 = min 5 (max 1 (py_round1 (1 + 4 * (raw_score q M x.1 / 100)))) ∧
    1 ≤ x.2 ∧ x.2 ≤ 5 := by
  obtain ⟨-, hs, -⟩ := mem_candidate_list (mem_recommend hx)
  rw [final_score] at hs
  refine ⟨hs, ?_, ?_⟩
  · rw [hs]
    exact le_min (by norm_num) (le_max_left _ _)
  · rw [hs]
    exact min_le_left _ _

/-- Witness for C1: the demo attraction scores 4.4 ∈ [1, 5]. -/
theorem recommend_score_in_range_witness :
    (demoAttr, (22 : ℚ) / 5) ∈ recommend demoModel demoQuery ∧
    1 ≤ ((22 : ℚ) / 5) ∧ ((22 : ℚ) / 5) ≤ 5 := by
  have he : recommend demoModel demoQuery = [(demoAttr, (22 : ℚ) / 5)] := by
    norm_num [recommend, candidate_list, final_score, py_round1, round_half_even, raw_score,
      theme_score, audience_score, area_score, target_areas, base_rating_score, ratingOf,
      comment_bonus, seasonal_bonus, open_penalty, open_ratio, open_days,
      check_opening_status, parse_opening_hours, dateToken, pad2,
      extract_area_from_address, get_adjacent_areas, assocLookup, adjacent_areas,
      demoAttr, demoModel, demoQuery, List.insertionSort, List.orderedInsert]
  have hm : (demoAttr, (22 : ℚ) / 5) ∈ recommend demoModel demoQuery := by
    rw [he]
    exact List.mem_singleton_self _
  exact ⟨hm, (recommend_score_in_range demoModel demoQuery _ hm).2⟩

/-- C2: the returned list is sorted by score descending with comment count
(descending) as the tie-break; with no result limit it consists of all
qualifying candidates (a permutation of the pre-sort candidate list); with
a limit n it is the first n entries of the unlimited ranking. -/
theorem recommend_sorted_and_truncated (M : Model) (q : Query) :
    List.Sorted cand_le (recommend M q) ∧
    (q.top_n = none → List.Perm (recommend M q) (candidate_list M q)) ∧
    (∀ n, q.top_n = some n →
      recommend M q = (recommend M { q with top_n := none }).take n) := by
  refine ⟨?_, ?_, ?_⟩
  · cases htop : q.top_n with
    | some n =>
      rw [recommend_eq_of_some htop]
      exact List.Pairwise.sublist (List.take_sublist n _)
        (List.sorted_insertionSort cand_le (candidate_list M q))
    | none =>
      rw [recommend_eq_of_none htop]
      exact List.sorted_insertionSort cand_le (candidate_list M q)
  · intro htop
    rw [recommend_eq_of_none htop]
    exact List.perm_insertionSort cand_le (candidate_list M q)
  · intro n htop
    rw [recommend_eq_of_some htop, recommend_eq_of_none rfl]
    rfl

/-- Witness for C2: on the demo data the unlimited result is sorted, is a
permutation of the candidate list, and a `top_n = 2` query takes its prefix. -/
theorem recommend_sorted_and_truncated_witness :
    List.Sorted cand_le (recommend demoModel2 demoQuery2) ∧
    List.Perm (recommend demoModel2 demoQuery2) (candidate_list demoModel2 demoQuery2) ∧
    recommend demoModel2 demoQuery2Top =
      (recommend demoModel2 { demoQuery2Top with top_n := none }).take 2 := by
  have h1 := recommend_sorted_and_truncated demoModel2 demoQuery2
  have h2 := recommend_sorted_and_truncated demoModel2 demoQuery2Top
  exact ⟨h1.1, h1.2.1 rfl, h2.2.2 2 rfl⟩

/-- C5: with a nonempty requested date range, an attraction whose open-day
fraction is 0 is silently excluded from every returned candidate list (for
any result limit), while an attraction with positive open fraction keeps a
place in the unlimited candidate list, and when that fraction is below 0.8
its raw score carries the subtracted penalty `5 * (1 - fraction)`. -/
theorem recommend_closed_exclusion (M : Model) (q : Query) (a : AttrNode)
    (hq : q.date_range ≠ []) :
    (open_ratio q a = 0 → ∀ x ∈ recommend M q, x.1 ≠ a) ∧
    (a ∈ M.attractions → 0 < open_ratio q a →
      (a, final_score q M a) ∈ recommend M { q with top_n := none }) ∧
    (0 < open_ratio q a → open_ratio q a < 4 / 5 →
      open_penalty q a = 5 * (1 - open_ratio q a) ∧
      raw_score q M a =
        theme_score q a + audience_score q a + area_score q M.areas a
          + base_rating_score a + comment_bonus a.commentCount + seasonal_bonus q a
          - 5 * (1 - open_ratio q a)) := by
  refine ⟨?_, ?_, ?_⟩
  · intro h0 x hx heq
    obtain ⟨-, -, hnot⟩ := mem_candidate_list (mem_recommend hx)
    rw [heq] at hnot
    exact hnot ⟨hq, le_of_eq h0⟩
  · intro ha hpos
    have hc : (a, final_score q M a) ∈ candidate_list M q :=
      candidate_list_mem_of ha (by rintro ⟨-, hle⟩; exact absurd hle (not_le.mpr hpos))
    rw [recommend_eq_of_none rfl]
    exact ((List.perm_insertionSort cand_le (candidate_list M q)).mem_iff).mpr hc
  · intro hpos hlt
    have hp : open_penalty q a = 5 - 5 * open_ratio q a := by
      rw [open_penalty, if_pos ⟨hq, hpos, hlt⟩]
    refine ⟨by rw [hp]; ring, ?_⟩
    rw [raw_score, hp]
    ring

/-- Witness for C5: with the two-day query, the partially-closed attraction
remains listed and carries the 5·(1 − 1/2) penalty, applied at the concrete
model `demoModel2`. -/
theorem recommend_closed_exclusion_witness :
    (demoPartAttr, final_score demoQuery2 demoModel2 demoPartAttr)
        ∈ recommend demoModel2 { demoQuery2 with top_n := none } ∧
    open_penalty demoQuery2 demoPartAttr = 5 * (1 - open_ratio demoQuery2 demoPartAttr) := by
  have hd : open_days demoQuery2 demoPartAttr = 1 := rfl
  have hr : open_ratio demoQuery2 demoPartAttr = 1 / 2 := by
    rw [open_ratio, hd]
    norm_num [demoQuery2]
  have hpos : 0 < open_ratio demoQuery2 demoPartAttr := by rw [hr]; norm_num
  have hlt : open_ratio demoQuery2 demoPartAttr < 4 / 5 := by rw [hr]; norm_num
  have hmem : demoPartAttr ∈ demoModel2.attractions := List.mem_cons_self _ _
  have h := recommend_closed_exclusion demoModel2 demoQuery2 demoPartAttr (by decide)
  exact ⟨h.2.1 hmem hpos, (h.2.2 hpos hlt).1⟩

/-! ## Day distribution (C9) -/

theorem distribute_foldl_length {α : Type} (m : ℕ) :
    ∀ (l : List (ℕ × α)) (acc : List (List α)),
      (l.foldl (fun acc p => acc.set (p.1 % m) (acc.getD (p.1 % m) [] ++ [p.2])) acc).length
        = acc.length := by
  intro l
  induction l with
  | nil => intro acc; rfl
  | cons a t ih =>
    intro acc
    rw [List.foldl_cons, ih, List.length_set]

theorem distribute_foldl_getD {α : Type} (m : ℕ) :
    ∀ (l : List α) (s : ℕ) (acc : List (List α)), acc.length = m →
      ∀ k, k < m →
        ((List.enumFrom s l).foldl
            (fun acc p => acc.set (p.1 % m) (acc.getD (p.1 % m) [] ++ [p.2])) acc).getD k []
          = acc.getD k [] ++ ((List.enumFrom s l).filter (fun p => p.1 % m = k)).map Prod.snd := by
  intro l
  induction l with
  | nil =>
    intro s acc hlen k hk
    simp
  | cons a t ih =>
    intro s acc hlen k hk
    rw [List.enumFrom_cons, List.foldl_cons, List.filter_cons]
    have hlen' : (acc.set ((s, a).1 % m) (acc.getD ((s, a).1 % m) [] ++ [(s, a).2])).length = m := by
      rw [List.length_set]; exact hlen
    rw [ih (s + 1) _ hlen' k hk]
    by_cases hsk : s % m = k
    · rw [if_pos (by simpa using hsk)]
      have hset : (acc.set ((s, a).1 % m) (acc.getD ((s, a).1 % m) [] ++ [(s, a).2])).getD k []
          = acc.getD k [] ++ [a] := by
        dsimp only
        rw [hsk, List.getD_eq_getElem?_getD, List.getElem?_set_self (hlen ▸ hk)]
        rfl
      rw [hset, List.map_cons, List.append_assoc]
      rfl
    · rw [if_neg (by simpa using hsk)]
      have hset : (acc.set ((s, a).1 % m) (acc.getD ((s, a).1 % m) [] ++ [(s, a).2])).getD k []
          = acc.getD k [] := by
        dsimp only
        rw [List.getD_eq_getElem?_getD, List.getElem?_set_ne hsk, ← List.getD_eq_getElem?_getD]
      rw [hset]

/-- C9: with a nonempty date range of m days, the composer's day-grouping
loop produces exactly one group per date (m groups), and the k-th group is
exactly the subsequence of route-ordered attractions whose index i
satisfies `i % m = k`, in route order — attraction i goes to day i mod m. -/
theorem distribute_days_round_robin {α : Type} (m : ℕ) (attrs : List α) (_hm : 0 < m) :
    (distribute_days m attrs).length = m ∧
    ∀ k, k < m →
      (distribute_days m attrs).getD k [] =
        (attrs.enum.filter (fun p => p.1 % m = k)).map Prod.snd := by
  constructor
  · rw [distribute_days, distribute_foldl_length, List.length_replicate]
  · intro k hk
    rw [distribute_days]
    have hrep : (List.replicate m ([] : List α)).length = m := List.length_replicate m []
    have h := distribute_foldl_getD m attrs 0 (List.replicate m []) hrep k hk
    have hinit : (List.replicate m ([] : List α)).getD k [] = [] := by
      rw [List.getD_eq_getElem?_getD, List.getElem?_replicate]
      split <;> rfl
    rw [show attrs.enum = List.enumFrom 0 attrs from rfl, h, hinit, List.nil_append]

/-- Witness for C9: seven attractions over a three-day range. -/
theorem distribute_days_round_robin_witness :
    (distribute_days 3 ["a", "b", "c", "d", "e", "f", "g"]).length = 3 ∧
    (distribute_days 3 ["a", "b", "c", "d", "e", "f", "g"]).getD 1 [] = ["b", "e"] := by
  have h := distribute_days_round_robin 3 ["a", "b", "c", "d", "e", "f", "g"] (by decide)
  exact ⟨h.1, by rw [h.2 1 (by decide)]; decide⟩

/-! ## Route optimizer: nearest neighbour and 2-opt (C6, C7, C10) -/

theorem selectMin_eq_none {f : ℕ → ℕ} : ∀ {l : List ℕ}, selectMin f l = none ↔ l = [] := by
  intro l
  cases l with
  | nil => simp [selectMin]
  | cons x xs =>
    rw [selectMin]
    cases h : selectMin f xs with
    | none => simp
    | some p =>
      obtain ⟨y, ys⟩ := p
      dsimp only
      split <;> simp

theorem selectMin_length {f : ℕ → ℕ} :
    ∀ {l : List ℕ} {y : ℕ} {ys : List ℕ}, selectMin f l = some (y, ys) →
      ys.length + 1 = l.length := by
  intro l
  induction l with
  | nil => intro y ys h; exact absurd h (by simp [selectMin])
  | cons x xs ih =>
    intro y ys h
    rw [selectMin] at h
    cases hx : selectMin f xs with
    | none =>
      rw [hx] at h
      injection h with h
      rw [selectMin_eq_none.mp hx]
      cases h
      rfl
    | some p =>
      obtain ⟨y0, ys0⟩ := p
      rw [hx] at h
      dsimp only at h
      by_cases hle : f x ≤ f y0
      · rw [if_pos hle] at h
        injection h with h
        cases h
        rfl
      · rw [if_neg hle] at h
        injection h with h
        cases h
        have := ih hx
        simp only [List.length_cons]
        omega

theorem selectMin_perm {f : ℕ → ℕ} :
    ∀ {l : List ℕ} {y : ℕ} {ys : List ℕ}, selectMin f l = some (y, ys) →
      List.Perm (y :: ys) l := by
  intro l
  induction l with
  | nil => intro y ys h; exact absurd h (by simp [selectMin])
  | cons x xs ih =>
    intro y ys h
    rw [selectMin] at h
    cases hx : selectMin f xs with
    | none =>
      rw [hx] at h
      injection h with h
      rw [selectMin_eq_none.mp hx]
      cases h
      exact List.Perm.refl _
    | some p =>
      obtain ⟨y0, ys0⟩ := p
      rw [hx] at h
      dsimp only at h
      by_cases hle : f x ≤ f y0
      · rw [if_pos hle] at h
        injection h with h
        cases h
        exact List.Perm.refl _
      · rw [if_neg hle] at h
        injection h with h
        rw [Prod.mk.injEq] at h
        obtain ⟨h1, h2⟩ := h
        subst h1
        subst h2
        exact (List.Perm.swap x y0 ys0).trans ((ih hx).cons x)

theorem nn_aux_perm (M : ℕ → ℕ → ℕ) :
    ∀ (fuel last : ℕ) (u : List ℕ), u.length ≤ fuel →
      List.Perm (nn_aux M fuel last u) u := by
  intro fuel
  induction fuel with
  | zero =>
    intro last u hu
    rw [List.length_eq_zero.mp (Nat.le_zero.mp hu)]
    exact List.Perm.refl _
  | succ f ih =>
    intro last u hu
    rw [nn_aux]
    cases hs : selectMin (fun x => M last x) u with
    | none =>
      rw [selectMin_eq_none.mp hs]
    | some p =>
      obtain ⟨y, ys⟩ := p
      have hlen := selectMin_length hs
      exact ((ih y ys (by omega)).cons y).trans (selectMin_perm hs)

theorem nn_tour_perm (M : ℕ → ℕ → ℕ) {n : ℕ} (hn : 1 ≤ n) :
    List.Perm (nn_tour M n) (List.range n) := by
  obtain ⟨m, rfl⟩ : ∃ m, n = m + 1 := ⟨n - 1, by omega⟩
  rw [nn_tour, List.range_eq_range', List.range'_succ]
  have : m + 1 - 1 = m := by omega
  rw [this]
  exact (nn_aux_perm M m 0 (List.range' 1 m) (by rw [List.length_range'])).cons 0

theorem nn_tour_head (M : ℕ → ℕ → ℕ) (n : ℕ) : (nn_tour M n).head? = some 0 := rfl

/-- Default-value irrelevance for `headD` on nonempty lists. -/
theorem headD_ne_nil {α : Type} {l : List α} (h : l ≠ []) (d1 d2 : α) :
    l.headD d1 = l.headD d2 := by
  cases l with
  | nil => exact absurd rfl h
  | cons a t => rfl

/-- Default-value irrelevance for `getLastD` on nonempty lists. -/
theorem getLastD_ne_nil {α : Type} :
    ∀ {l : List α}, l ≠ [] → ∀ (d1 d2 : α), l.getLastD d1 = l.getLastD d2 := by
  intro l
  cases l with
  | nil => exact fun h => absurd rfl h
  | cons a t => intro _ d1 d2; rw [List.getLastD_cons, List.getLastD_cons]

theorem headD_append_left {α : Type} {A : List α} (l : List α) (d : α) (hA : A ≠ []) :
    (A ++ l).headD d = A.headD d := by
  cases A with
  | nil => exact absurd rfl hA
  | cons a t => rfl

theorem getLastD_append_right {α : Type} {B : List α} (l : List α) (d : α) (hB : B ≠ []) :
    (l ++ B).getLastD d = B.getLastD d := by
  rw [List.getLastD_eq_getLast?, List.getLastD_eq_getLast?, List.getLast?_append_of_ne_nil _ hB]

theorem headD_reverse {α : Type} (l : List α) (d : α) : l.reverse.headD d = l.getLastD d := by
  rw [List.headD_eq_head?, List.head?_reverse, List.getLastD_eq_getLast?]

theorem getLastD_reverse {α : Type} (l : List α) (d : α) : l.reverse.getLastD d = l.headD d := by
  rw [List.getLastD_eq_getLast?, List.getLast?_reverse, List.headD_eq_head?]

/-- Decomposition of a path at the reversal segment. -/
theorem rev_seg_decomp (p : List ℕ) (i j : ℕ) (hij : i ≤ j + 1) :
    p.take i ++ (p.drop i).take (j + 1 - i) ++ p.drop (j + 1) = p := by
  rw [List.append_assoc]
  have h2 : (p.drop i).drop (j + 1 - i) = p.drop (j + 1) := by
    rw [List.drop_drop]
    congr 1
    omega
  rw [← h2, List.take_append_drop, List.take_append_drop]

theorem rev_seg_perm (p : List ℕ) (i j : ℕ) (hij : i ≤ j + 1) :
    List.Perm (rev_seg p i j) p := by
  conv_rhs => rw [← rev_seg_decomp p i j hij]
  rw [rev_seg]
  exact ((((p.drop i).take (j + 1 - i)).reverse_perm.append_left _).append_right _)

theorem rev_seg_length (p : List ℕ) (i j : ℕ) (hij : i ≤ j + 1) :
    (rev_seg p i j).length = p.length :=
  (rev_seg_perm p i j hij).length_eq

theorem rev_seg_head (p : List ℕ) (i j : ℕ) (hi : 1 ≤ i) :
    (rev_seg p i j).head? = p.head? := by
  cases p with
  | nil => rw [rev_seg]; simp
  | cons a t =>
    obtain ⟨i', rfl⟩ : ∃ i', i = i' + 1 := ⟨i - 1, by omega⟩
    rw [rev_seg, List.take_succ_cons, List.cons_append, List.cons_append]
    rfl

theorem path_cost_nil (M : ℕ → ℕ → ℕ) : path_cost M [] = 0 := rfl

theorem path_cost_single (M : ℕ → ℕ → ℕ) (a : ℕ) : path_cost M [a] = 0 := rfl

theorem path_cost_cons_cons (M : ℕ → ℕ → ℕ) (a b : ℕ) (t : List ℕ) :
    path_cost M (a :: b :: t) = M a b + path_cost M (b :: t) := rfl

theorem path_cost_append (M : ℕ → ℕ → ℕ) :
    ∀ (xs ys : List ℕ), xs ≠ [] → ys ≠ [] →
      path_cost M (xs ++ ys)
        = path_cost M xs + M (xs.getLastD 0) (ys.headD 0) + path_cost M ys := by
  intro xs
  induction xs with
  | nil => intro ys h; exact absurd rfl h
  | cons x xs ih =>
    intro ys hx hy
    cases xs with
    | nil =>
      cases ys with
      | nil => exact absurd rfl hy
      | cons y t =>
        rw [List.singleton_append, path_cost_cons_cons, path_cost_single]
        show M x y + path_cost M (y :: t) = 0 + M x y + path_cost M (y :: t)
        omega
    | cons x2 t2 =>
      show path_cost M (x :: x2 :: (t2 ++ ys)) = _
      rw [path_cost_cons_cons]
      have ihe := ih ys (by simp) hy
      rw [show path_cost M (x2 :: (t2 ++ ys)) = path_cost M ((x2 :: t2) ++ ys) from rfl,
        ihe, path_cost_cons_cons M x x2 t2]
      simp only [List.getLastD_cons]
      omega

theorem path_cost_reverse (M : ℕ → ℕ → ℕ) (hsym : ∀ x y, M x y = M y x) :
    ∀ l : List ℕ, path_cost M l.reverse = path_cost M l := by
  intro l
  induction l with
  | nil => rfl
  | cons a t ih =>
    cases t with
    | nil => rfl
    | cons b t2 =>
      rw [List.reverse_cons, path_cost_append M _ [a] (by simp) (by simp), ih]
      rw [getLastD_reverse]
      rw [path_cost_single, path_cost_cons_cons]
      show path_cost M (b :: t2) + M ((b :: t2).headD 0) a + 0
          = M a b + path_cost M (b :: t2)
      rw [show ((b :: t2).headD 0) = b from rfl, hsym b a]
      omega

theorem cycle_cost_eq (M : ℕ → ℕ → ℕ) {l : List ℕ} (hl : l ≠ []) :
    cycle_cost M l = path_cost M l + M (l.getLastD 0) (l.headD 0) := by
  cases l with
  | nil => exact absurd rfl hl
  | cons a t => rfl

/-- The key cost identity: reversing the middle segment of a closed tour
exchanges the two boundary edges and keeps everything else (the reversed
segment's internal cost needs the matrix to be symmetric). -/
theorem cycle_cost_swap (M : ℕ → ℕ → ℕ) (hsym : ∀ x y, M x y = M y x)
    (A B C : List ℕ) (hA : A ≠ []) (hB : B ≠ []) :
    cycle_cost M (A ++ B.reverse ++ C)
      + (M (A.getLastD 0) (B.headD 0) + M (B.getLastD 0) (C.headD (A.headD 0)))
    = cycle_cost M (A ++ B ++ C)
      + (M (A.getLastD 0) (B.getLastD 0) + M (B.headD 0) (C.headD (A.headD 0))) := by
  have hBrev : B.reverse ≠ [] := by simpa using hB
  have hABrev : A ++ B.reverse ≠ [] := by simp [hA]
  have hAB : A ++ B ≠ [] := by simp [hA]
  cases C with
  | nil =>
    rw [List.append_nil, List.append_nil]
    rw [cycle_cost_eq M hABrev, cycle_cost_eq M hAB]
    rw [path_cost_append M A B.reverse hA hBrev, path_cost_append M A B hA hB]
    rw [path_cost_reverse M hsym]
    rw [getLastD_append_right _ _ hBrev, getLastD_append_right _ _ hB]
    rw [headD_append_left _ _ hA, headD_append_left _ _ hA]
    rw [headD_reverse, getLastD_reverse]
    show _ + _ + _ + _ + (_ + M (B.getLastD 0) (A.headD 0))
        = _ + _ + _ + _ + (_ + M (B.headD 0) (A.headD 0))
    omega
  | cons c C2 =>
    have hC : (c :: C2) ≠ [] := by simp
    rw [cycle_cost_eq M (by simp [hABrev]), cycle_cost_eq M (by simp [hAB])]
    rw [path_cost_append M (A ++ B.reverse) (c :: C2) hABrev hC,
        path_cost_append M A B.reverse hA hBrev,
        path_cost_append M (A ++ B) (c :: C2) hAB hC,
        path_cost_append M A B hA hB,
        path_cost_reverse M hsym]
    rw [getLastD_append_right (A ++ B.reverse) _ hC, getLastD_append_right (A ++ B) _ hC]
    rw [getLastD_append_right _ _ hBrev, getLastD_append_right _ _ hB]
    rw [headD_append_left _ _ hABrev, headD_append_left _ _ hAB]
    rw [headD_append_left _ _ hA, headD_append_left _ _ hA]
    rw [headD_reverse, getLastD_reverse]
    rw [show ((c :: C2).headD (A.headD 0)) = c from rfl,
        show ((c :: C2).headD 0) = c from rfl]
    omega

theorem take_getLastD (p : List ℕ) (i : ℕ) (h1 : 1 ≤ i) (h2 : i ≤ p.length) :
    (p.take i).getLastD 0 = p.getD (i - 1) 0 := by
  rw [List.getLastD_eq_getLast?, List.getLast?_eq_getElem?, List.getD_eq_getElem?_getD]
  rw [List.length_take, min_eq_left h2, List.getElem?_take, if_pos (by omega)]

theorem take_headD (p : List ℕ) (i : ℕ) (hi : 1 ≤ i) : (p.take i).headD 0 = p.headD 0 := by
  cases p with
  | nil => rw [List.take_nil]
  | cons a t =>
    obtain ⟨i', rfl⟩ : ∃ i', i = i' + 1 := ⟨i - 1, by omega⟩
    rw [List.take_succ_cons]
    rfl

theorem drop_take_headD (p : List ℕ) (i k : ℕ) (hk : 1 ≤ k) (_hi : i < p.length) :
    ((p.drop i).take k).headD 0 = p.getD i 0 := by
  rw [List.headD_eq_head?, List.getD_eq_getElem?_getD, List.head?_eq_getElem?,
    List.getElem?_take, if_pos (by omega), List.getElem?_drop]
  rw [Nat.add_zero]

theorem drop_take_getLastD (p : List ℕ) (i j : ℕ) (hij : i ≤ j) (hj : j < p.length) :
    ((p.drop i).take (j + 1 - i)).getLastD 0 = p.getD j 0 := by
  rw [List.getLastD_eq_getLast?, List.getLast?_eq_getElem?, List.getD_eq_getElem?_getD]
  have hlen : ((p.drop i).take (j + 1 - i)).length = j + 1 - i := by
    rw [List.length_take, List.length_drop]
    exact min_eq_left (by omega)
  rw [hlen, List.getElem?_take, if_pos (by omega), List.getElem?_drop]
  congr 2
  omega

theorem drop_headD_of_lt (p : List ℕ) (j : ℕ) (_hj : j < p.length) (d : ℕ) :
    (p.drop j).headD d = p.getD j d := by
  rw [List.headD_eq_head?, List.head?_drop, List.getD_eq_getElem?_getD]

theorem drop_eq_nil_of_le {p : List ℕ} {j : ℕ} (hj : p.length ≤ j) : p.drop j = [] :=
  List.drop_eq_nil_of_le hj

/-- The accepted 2-opt move strictly decreases the closed-tour cost: the
`delta` of `_solve_tsp` is exactly the cost change of the reversal. -/
theorem two_opt_move_cost (M : ℕ → ℕ → ℕ) (hsym : ∀ x y, M x y = M y x)
    (p : List ℕ) (i j : ℕ) (h1 : 1 ≤ i) (h2 : i + 1 ≤ j) (h3 : j < p.length)
    (hp0 : p.headD 0 = 0)
    (hacc : M (p.getD (i - 1) 0) (p.getD j 0)
        + M (p.getD i 0) (if j + 1 < p.length then p.getD (j + 1) 0 else 0)
      < M (p.getD (i - 1) 0) (p.getD i 0)
        + M (p.getD j 0) (if j + 1 < p.length then p.getD (j + 1) 0 else 0)) :
    cycle_cost M (rev_seg p i j) < cycle_cost M p := by
  have hA : p.take i ≠ [] := by
    have : (p.take i).length = i := by rw [List.length_take]; exact min_eq_left (by omega)
    intro hnil
    rw [hnil] at this
    simp at this
    omega
  have hBlen : ((p.drop i).take (j + 1 - i)).length = j + 1 - i := by
    rw [List.length_take, List.length_drop]
    exact min_eq_left (by omega)
  have hB : (p.drop i).take (j + 1 - i) ≠ [] := by
    intro hnil
    rw [hnil] at hBlen
    simp at hBlen
    omega
  have hdec := rev_seg_decomp p i j (by omega)
  have hswap := cycle_cost_swap M hsym (p.take i) ((p.drop i).take (j + 1 - i))
    (p.drop (j + 1)) hA hB
  rw [hdec] at hswap
  rw [take_getLastD p i h1 (by omega), take_headD p i h1,
    drop_take_headD p i (j + 1 - i) (by omega) (by omega),
    drop_take_getLastD p i j (by omega) h3, hp0] at hswap
  have hwrap : (p.drop (j + 1)).headD 0 = if j + 1 < p.length then p.getD (j + 1) 0 else 0 := by
    by_cases hlt : j + 1 < p.length
    · rw [if_pos hlt, drop_headD_of_lt p (j + 1) hlt]
    · rw [if_neg hlt, drop_eq_nil_of_le (by omega)]
      rfl
  rw [hwrap] at hswap
  rw [rev_seg]
  omega

/-- One probe of the double loop, written out as nested conditionals. -/
theorem two_opt_step_eq (M : ℕ → ℕ → ℕ) (n : ℕ) (p : List ℕ) (b : Bool) (i j : ℕ) :
    two_opt_step M n (p, b) (i, j) =
      if j - i = 1 then (p, b)
      else if M (p.getD (i - 1) 0) (p.getD j 0)
          + M (p.getD i 0) (if j + 1 < n then p.getD (j + 1) 0 else 0)
        < M (p.getD (i - 1) 0) (p.getD i 0)
          + M (p.getD j 0) (if j + 1 < n then p.getD (j + 1) 0 else 0) then
        (rev_seg p i j, true)
      else (p, b) := rfl

theorem pair_list_bounds (n : ℕ) :
    ∀ pr ∈ pair_list n, 1 ≤ pr.1 ∧ pr.1 + 1 ≤ pr.2 ∧ pr.2 < n := by
  intro pr hpr
  rw [pair_list] at hpr
  rcases List.mem_flatMap.mp hpr with ⟨i, hi, hj⟩
  rcases List.mem_map.mp hj with ⟨j, hjm, rfl⟩
  rcases List.mem_range'.mp hi with ⟨a, ha, rfl⟩
  rcases List.mem_range'.mp hjm with ⟨c, hc, rfl⟩
  refine ⟨by omega, by omega, by omega⟩

theorem two_opt_foldl_snd_mono (M : ℕ → ℕ → ℕ) (n : ℕ) :
    ∀ (prs : List (ℕ × ℕ)) (p : List ℕ),
      (prs.foldl (two_opt_step M n) (p, true)).2 = true := by
  intro prs
  induction prs with
  | nil => intro p; rfl
  | cons q qs ihq =>
    intro p
    obtain ⟨qi, qj⟩ := q
    rw [List.foldl_cons, two_opt_step_eq]
    by_cases h1 : qj - qi = 1
    · rw [if_pos h1]
      exact ihq p
    · rw [if_neg h1]
      by_cases h2 : M (p.getD (qi - 1) 0) (p.getD qj 0)
          + M (p.getD qi 0) (if qj + 1 < n then p.getD (qj + 1) 0 else 0)
        < M (p.getD (qi - 1) 0) (p.getD qi 0)
          + M (p.getD qj 0) (if qj + 1 < n then p.getD (qj + 1) 0 else 0)
      · rw [if_pos h2]
        exact ihq _
      · rw [if_neg h2]
        exact ihq p

/-- Invariants of one full scan of the 2-opt double loop. -/
theorem two_opt_fold_props (M : ℕ → ℕ → ℕ) (n : ℕ) (hsym : ∀ x y, M x y = M y x) :
    ∀ (pairs : List (ℕ × ℕ)),
      (∀ pr ∈ pairs, 1 ≤ pr.1 ∧ pr.1 + 1 ≤ pr.2 ∧ pr.2 < n) →
      ∀ (p : List ℕ) (b : Bool), p.length = n → p.headD 0 = 0 →
        (pairs.foldl (two_opt_step M n) (p, b)).1.length = n ∧
        (pairs.foldl (two_opt_step M n) (p, b)).1.head? = p.head? ∧
        List.Perm (pairs.foldl (two_opt_step M n) (p, b)).1 p ∧
        cycle_cost M (pairs.foldl (two_opt_step M n) (p, b)).1 ≤ cycle_cost M p ∧
        (b = false → (pairs.foldl (two_opt_step M n) (p, b)).2 = false →
          (pairs.foldl (two_opt_step M n) (p, b)).1 = p) ∧
        (b = false → (pairs.foldl (two_opt_step M n) (p, b)).2 = true →
          cycle_cost M (pairs.foldl (two_opt_step M n) (p, b)).1 < cycle_cost M p) := by
  intro pairs
  induction pairs with
  | nil =>
    intro hbnd p b hlen hp0
    refine ⟨hlen, rfl, List.Perm.refl p, le_refl _, fun _ _ => rfl, ?_⟩
    intro hb ht
    rw [List.foldl_nil] at ht
    rw [hb] at ht
    cases ht
  | cons pr rest ih =>
    intro hbnd p b hlen hp0
    obtain ⟨i, j⟩ := pr
    obtain ⟨hb1, hb2, hb3⟩ := hbnd (i, j) (List.mem_cons_self _ _)
    have hrest := fun pr hpr => hbnd pr (List.mem_cons_of_mem _ hpr)
    rw [List.foldl_cons, two_opt_step_eq]
    by_cases hskip : j - i = 1
    · rw [if_pos hskip]
      exact ih hrest p b hlen hp0
    · rw [if_neg hskip]
      by_cases hacc : M (p.getD (i - 1) 0) (p.getD j 0)
          + M (p.getD i 0) (if j + 1 < n then p.getD (j + 1) 0 else 0)
        < M (p.getD (i - 1) 0) (p.getD i 0)
          + M (p.getD j 0) (if j + 1 < n then p.getD (j + 1) 0 else 0)
      · rw [if_pos hacc]
        have hqlen : (rev_seg p i j).length = n := by
          rw [rev_seg_length p i j (by omega)]
          exact hlen
        have hqhead : (rev_seg p i j).head? = p.head? := rev_seg_head p i j hb1
        have hqheadD : (rev_seg p i j).headD 0 = 0 := by
          rw [List.headD_eq_head?, hqhead, ← List.headD_eq_head?]
          exact hp0
        have hqcost : cycle_cost M (rev_seg p i j) < cycle_cost M p := by
          apply two_opt_move_cost M hsym p i j hb1 hb2 (by omega) hp0
          rw [hlen]
          exact hacc
        obtain ⟨l1, l2, l3, l4, l5, l6⟩ := ih hrest (rev_seg p i j) true hqlen hqheadD
        refine ⟨l1, l2.trans hqhead, l3.trans (rev_seg_perm p i j (by omega)),
          le_trans l4 (le_of_lt hqcost), ?_, ?_⟩
        · intro _ hfalse
          rw [two_opt_foldl_snd_mono M n rest (rev_seg p i j)] at hfalse
          cases hfalse
        · intro _ _
          exact lt_of_le_of_lt l4 hqcost
      · rw [if_neg hacc]
        exact ih hrest p b hlen hp0

theorem two_opt_sweep_props (M : ℕ → ℕ → ℕ) (n : ℕ) (hsym : ∀ x y, M x y = M y x)
    (p : List ℕ) (hlen : p.length = n) (hp0 : p.headD 0 = 0) :
    (two_opt_sweep M n p).1.length = n ∧
    (two_opt_sweep M n p).1.head? = p.head? ∧
    List.Perm (two_opt_sweep M n p).1 p ∧
    cycle_cost M (two_opt_sweep M n p).1 ≤ cycle_cost M p ∧
    ((two_opt_sweep M n p).2 = false → (two_opt_sweep M n p).1 = p) ∧
    ((two_opt_sweep M n p).2 = true → cycle_cost M (two_opt_sweep M n p).1 < cycle_cost M p) := by
  have h := two_opt_fold_props M n hsym (pair_list n) (pair_list_bounds n) p false hlen hp0
  exact ⟨h.1, h.2.1, h.2.2.1, h.2.2.2.1, h.2.2.2.2.1 rfl, h.2.2.2.2.2 rfl⟩

theorem two_opt_iter_props (M : ℕ → ℕ → ℕ) (n : ℕ) (hsym : ∀ x y, M x y = M y x) :
    ∀ (fuel : ℕ) (p : List ℕ), p.length = n → p.headD 0 = 0 →
      (two_opt_iter M n fuel p).length = n ∧
      (two_opt_iter M n fuel p).head? = p.head? ∧
      List.Perm (two_opt_iter M n fuel p) p ∧
      cycle_cost M (two_opt_iter M n fuel p) ≤ cycle_cost M p := by
  intro fuel
  induction fuel with
  | zero => intro p hlen _; exact ⟨hlen, rfl, List.Perm.refl p, le_refl _⟩
  | succ f ih =>
    intro p hlen hp0
    rw [two_opt_iter]
    have hs := two_opt_sweep_props M n hsym p hlen hp0
    have hpd : (two_opt_sweep M n p).1.headD 0 = 0 := by
      rw [List.headD_eq_head?, hs.2.1, ← List.headD_eq_head?]
      exact hp0
    by_cases himp : (two_opt_sweep M n p).2 = true
    · rw [if_pos himp]
      obtain ⟨g1, g2, g3, g4⟩ := ih (two_opt_sweep M n p).1 hs.1 hpd
      exact ⟨g1, g2.trans hs.2.1, g3.trans hs.2.2.1, le_trans g4 hs.2.2.2.1⟩
    · rw [if_neg himp]
      exact ⟨hs.1, hs.2.1, hs.2.2.1, hs.2.2.2.1⟩

theorem two_opt_iter_fix (M : ℕ → ℕ → ℕ) (n : ℕ) (hsym : ∀ x y, M x y = M y x) :
    ∀ (fuel : ℕ) (p : List ℕ), p.length = n → p.headD 0 = 0 → cycle_cost M p < fuel →
      (two_opt_sweep M n (two_opt_iter M n fuel p)).2 = false := by
  intro fuel
  induction fuel with
  | zero => intro p _ _ h; omega
  | succ f ih =>
    intro p hlen hp0 hfuel
    rw [two_opt_iter]
    have hs := two_opt_sweep_props M n hsym p hlen hp0
    have hpd : (two_opt_sweep M n p).1.headD 0 = 0 := by
      rw [List.headD_eq_head?, hs.2.1, ← List.headD_eq_head?]
      exact hp0
    by_cases himp : (two_opt_sweep M n p).2 = true
    · rw [if_pos himp]
      apply ih (two_opt_sweep M n p).1 hs.1 hpd
      have := hs.2.2.2.2.2 himp
      omega
    · rw [if_neg himp]
      have hfix : (two_opt_sweep M n p).1 = p := hs.2.2.2.2.1 (by simpa using himp)
      rw [hfix]
      simpa using himp

theorem nn_tour_headD (M : ℕ → ℕ → ℕ) (n : ℕ) : (nn_tour M n).headD 0 = 0 := rfl

theorem nn_tour_length (M : ℕ → ℕ → ℕ) {n : ℕ} (hn : 1 ≤ n) : (nn_tour M n).length = n :=
  (nn_tour_perm M hn).length_eq.trans (List.length_range n)

theorem solve_tsp_perm (M : ℕ → ℕ → ℕ) (hsym : ∀ x y, M x y = M y x) {n : ℕ} (hn : 1 ≤ n) :
    List.Perm (solve_tsp M n) (List.range n) := by
  rw [solve_tsp]
  by_cases h1 : n ≤ 1
  · rw [if_pos h1]
    have h : n = 1 := by omega
    subst h
    decide
  · rw [if_neg h1]
    have hnn := nn_tour_perm M hn
    have h := two_opt_iter_props M n hsym (cycle_cost M (nn_tour M n) + 1) (nn_tour M n)
      (nn_tour_length M hn) (nn_tour_headD M n)
    exact h.2.2.1.trans hnn

theorem solve_tsp_head (M : ℕ → ℕ → ℕ) (hsym : ∀ x y, M x y = M y x) (n : ℕ) :
    (solve_tsp M n).head? = some 0 := by
  rw [solve_tsp]
  by_cases h1 : n ≤ 1
  · rw [if_pos h1]
    rfl
  · rw [if_neg h1]
    have h := two_opt_iter_props M n hsym (cycle_cost M (nn_tour M n) + 1) (nn_tour M n)
      (nn_tour_length M (by omega)) (nn_tour_headD M n)
    exact h.2.1.trans (nn_tour_head M n)

/-- C7: for every (symmetric) cost matrix — and every matrix the optimizer
builds is symmetric — the tour produced by `_solve_tsp` never costs more
than the nearest-neighbour seed it started from; the loop stops only at a
local optimum (a further sweep finds no improving move); and each accepted
2-opt probe (`delta < 0`, i.e. the two new boundary edges are strictly
cheaper than the two they replace) strictly decreases the closed-tour cost. -/
theorem solve_tsp_two_opt (M : ℕ → ℕ → ℕ) (hsym : ∀ x y, M x y = M y x) (n : ℕ) :
    cycle_cost M (solve_tsp M n) ≤ cycle_cost M (nn_tour M n) ∧
    (two_opt_sweep M n (solve_tsp M n)).2 = false ∧
    (∀ (p : List ℕ) (i j : ℕ), 1 ≤ i → i + 1 ≤ j → j < p.length → p.headD 0 = 0 →
      (two_opt_step M p.length (p, false) (i, j)).2 = true →
      cycle_cost M (rev_seg p i j) < cycle_cost M p) := by
  refine ⟨?_, ?_, ?_⟩
  · rw [solve_tsp]
    by_cases h1 : n ≤ 1
    · rw [if_pos h1]
      interval_cases n
      · exact le_refl _
      · exact le_refl _
    · rw [if_neg h1]
      exact (two_opt_iter_props M n hsym (cycle_cost M (nn_tour M n) + 1) (nn_tour M n)
        (nn_tour_length M (by omega)) (nn_tour_headD M n)).2.2.2
  · rw [solve_tsp]
    by_cases h1 : n ≤ 1
    · rw [if_pos h1]
      interval_cases n
      · rfl
      · rfl
    · rw [if_neg h1]
      exact two_opt_iter_fix M n hsym (cycle_cost M (nn_tour M n) + 1) (nn_tour M n)
        (nn_tour_length M (by omega)) (nn_tour_headD M n) (by omega)
  · intro p i j h1 h2 h3 hp0 hstep
    rw [two_opt_step_eq] at hstep
    by_cases hskip : j - i = 1
    · rw [if_pos hskip] at hstep
      cases hstep
    · rw [if_neg hskip] at hstep
      by_cases hacc : M (p.getD (i - 1) 0) (p.getD j 0)
          + M (p.getD i 0) (if j + 1 < p.length then p.getD (j + 1) 0 else 0)
        < M (p.getD (i - 1) 0) (p.getD i 0)
          + M (p.getD j 0) (if j + 1 < p.length then p.getD (j + 1) 0 else 0)
      · exact two_opt_move_cost M hsym p i j h1 h2 h3 hp0 hacc
      · rw [if_neg hacc] at hstep
        cases hstep

/-- Witness for C7 on a concrete symmetric matrix (`M i j = i + j`, n = 5). -/
theorem solve_tsp_two_opt_witness :
    cycle_cost (fun i j => i + j) (solve_tsp (fun i j => i + j) 5)
      ≤ cycle_cost (fun i j => i + j) (nn_tour (fun i j => i + j) 5) ∧
    (two_opt_sweep (fun i j => i + j) 5 (solve_tsp (fun i j => i + j) 5)).2 = false := by
  have h := solve_tsp_two_opt (fun i j => i + j) (fun x y => Nat.add_comm x y) 5
  exact ⟨h.1, h.2.1⟩

/-- The matrix built by `_optimize_route` is symmetric, because
`_get_actual_travel_time` is. -/
theorem get_actual_travel_time_symm :
    ∀ a b : String, get_actual_travel_time a b = get_actual_travel_time b a := by
  intro a b
  rw [get_actual_travel_time, get_actual_travel_time]
  by_cases hab : a = b
  · rw [if_pos hab, if_pos hab.symm]
  · rw [if_neg hab, if_neg (Ne.symm hab), get_travel_time_symm_aux a b]

theorem map_getD_range {α : Type} (l : List α) (d : α) :
    (List.range l.length).map (fun k => l.getD k d) = l := by
  induction l with
  | nil => rfl
  | cons a t ih =>
    have he : ((fun k => (a :: t).getD k d) ∘ Nat.succ) = (fun k => t.getD k d) := by
      funext k
      rfl
    rw [List.length_cons, List.range_succ_eq_map, List.map_cons, List.map_map, he, ih]
    rfl

/-- C6: the route optimizer returns a permutation of its input (nothing
added, dropped or duplicated), and inputs of at most two stops are returned
unchanged. -/
theorem optimize_route_perm {α : Type} [Inhabited α] (areaOf : α → String) (attrs : List α) :
    List.Perm (optimize_route areaOf attrs) attrs ∧
    (attrs.length ≤ 2 → optimize_route areaOf attrs = attrs) := by
  constructor
  · rw [optimize_route]
    by_cases h2 : attrs.length ≤ 2
    · rw [if_pos h2]
    · rw [if_neg h2]
      have hperm := solve_tsp_perm
        (fun i j => get_actual_travel_time (areaOf (attrs.getD i default))
          (areaOf (attrs.getD j default)))
        (fun x y => get_actual_travel_time_symm _ _)
        (show 1 ≤ attrs.length by omega)
      have hmap := hperm.map (fun k => attrs.getD k default)
      rw [map_getD_range] at hmap
      exact hmap
  · intro h2
    rw [optimize_route, if_pos h2]

/-- Witness for C6: a three-stop route is permuted, a two-stop route is
returned unchanged. -/
theorem optimize_route_perm_witness :
    List.Perm (optimize_route (fun s => s) ["云龙区", "泉山区", "贾汪区"])
      ["云龙区", "泉山区", "贾汪区"] ∧
    optimize_route (fun s => s) ["云龙区", "泉山区"] = ["云龙区", "泉山区"] :=
  ⟨(optimize_route_perm (fun s => s) ["云龙区", "泉山区", "贾汪区"]).1,
   (optimize_route_perm (fun s => s) ["云龙区", "泉山区"]).2 (by decide)⟩

/-- C10: with three or more stops the optimizer's output starts at the same
stop as its input: the nearest-neighbour seed starts at index 0 and every
2-opt reversal touches only positions 1 and above. -/
theorem optimize_route_head {α : Type} [Inhabited α] (areaOf : α → String) (attrs : List α)
    (h3 : 3 ≤ attrs.length) :
    (optimize_route areaOf attrs).head? = attrs.head? := by
  rw [optimize_route, if_neg (by omega)]
  rw [List.head?_map, solve_tsp_head _ (fun x y => get_actual_travel_time_symm _ _) _]
  cases attrs with
  | nil => simp at h3
  | cons a t => rfl

/-- Witness for C10 at a concrete three-stop route. -/
theorem optimize_route_head_witness :
    (optimize_route (fun s => s) ["云龙区", "泉山区", "贾汪区"]).head?
      = (["云龙区", "泉山区", "贾汪区"] : List String).head? :=
  optimize_route_head (fun s => s) ["云龙区", "泉山区", "贾汪区"] (by decide)

end TourismRec
